import Mathlib

/-!
Shallow embedding of the core of the vscode-encrypt-plugin repository:
the `EncryptionService` (AES-256-GCM file/in-place encryption,
src/services/EncryptionService.ts) and the `PasswordService`
session password cache (src/services/PasswordService.ts).

Conventions of the embedding:

* Byte buffers (`node:Buffer`) are `List Nat`.
* The Node crypto primitives (`pbkdf2Sync`, `createCipheriv('aes-256-gcm')`,
  `randomBytes`) are external library code, not part of the repository;
  they are modelled as an ideal authenticated cipher:
  - `deriveKey` is an injective pure function of (password, salt)
    (PBKDF2-SHA512 is modelled as ideal, i.e. collision-free);
  - the CTR keystream layer is a keyed XOR involution (`encBytes`/`decBytes`),
    so ciphertext length equals plaintext length, as for real GCM;
  - the GCM authentication tag is a 16-entry buffer whose first entry is an
    injective encoding of (key, iv, ciphertext) (ideal MAC, collision-free);
    `decipher.final()` throwing on tag mismatch (caught and turned into
    `null` by the source) is modelled as an explicit tag comparison.
  - `randomBytes` outputs become explicit `salt`/`iv` parameters of the
    encryption operations (explicit entropy passing).
* Node's `Buffer.from(s, 'base64')` / `buf.toString('base64')` are likewise
  external library code; they are modelled as an invertible codec between
  buffers and strings over the base64 character class `[A-Za-z0-9+/=]`
  (the only properties of base64 the repository relies on: invertibility,
  totality of decoding, and the character class used by the marker regexes).
* JS strings in regex positions are modelled at the Unicode scalar level
  (`List Char`); the UTF-16 surrogate representation of '🔐' is abstracted
  to a single character.
-/

/-! ## Buffers and the base64 codec model -/

abbrev Bytes := List Nat

/-- The 64 base64 digit characters, index = digit value. -/
def b64Digits : List Char :=
  "ABCDEFGHIJKLMNOPQRSTUVWXYZabcdefghijklmnopqrstuvwxyz0123456789+/".data

/-- Digit value `d` (for `d < 64`) as a base64 character. -/
def b64DigitChar (d : Nat) : Char := b64Digits.getD d 'A'

/-- Numeric value of a base64 digit character. -/
def b64CharVal (c : Char) : Nat :=
  if 'A' ≤ c ∧ c ≤ 'Z' then c.toNat - 65
  else if 'a' ≤ c ∧ c ≤ 'z' then c.toNat - 97 + 26
  else if '0' ≤ c ∧ c ≤ '9' then c.toNat - 48 + 52
  else if c = '+' then 62
  else if c = '/' then 63
  else 0

/-- Big-endian base-64 digit string of a natural number (no padding). -/
def natToB64 (n : Nat) : List Char :=
  if h : n < 64 then [b64DigitChar n]
  else natToB64 (n / 64) ++ [b64DigitChar (n % 64)]
decreasing_by
  exact Nat.div_lt_self (Nat.lt_of_lt_of_le (by decide) (Nat.le_of_not_lt h)) (by decide)

/-- Value of a big-endian base-64 digit string. -/
def fromB64 (l : List Char) : Nat :=
  l.foldl (fun acc c => acc * 64 + b64CharVal c) 0

/-- Join character groups with a `'='` separator. -/
def joinSep : List (List Char) → List Char
  | [] => []
  | [g] => g
  | g :: gs => g ++ '=' :: joinSep gs

/-- Split a character list at each `'='`. -/
def splitSep : List Char → List (List Char)
  | [] => [[]]
  | c :: t =>
    if c = '=' then [] :: splitSep t
    else
      match splitSep t with
      | [] => [[c]]
      | g :: gs => (c :: g) :: gs

/-- Model of `buf.toString('base64')`: an invertible encoding of a buffer
into a string over the base64 character class. -/
def bufToBase64 (l : Bytes) : String := ⟨joinSep (l.map natToB64)⟩

/-- Model of `Buffer.from(s, 'base64')`: total decoding, inverse of
`bufToBase64` on its image. -/
def base64ToBuf (s : String) : Bytes :=
  match s.data with
  | [] => []
  | l => (splitSep l).map fromB64

/-! ## Ideal cipher model (PBKDF2 + AES-256-GCM) -/

/-- UTF-8 encoding of a string, abstracted to the scalar values
(`cipher.update(plaintext, 'utf8', ...)`). -/
def strToBytes (s : String) : Bytes := s.data.map Char.toNat

/-- Decoding bytes back to a string (`plaintext.toString('utf8')`). -/
def bytesToStr (l : Bytes) : String := ⟨l.map Char.ofNat⟩

/-- Constants of `EncryptionService` (EncryptionService.ts). -/
def KEY_LENGTH : Nat := 32
def IV_LENGTH : Nat := 16
def SALT_LENGTH : Nat := 16
def AUTH_TAG_LENGTH : Nat := 16
def ITERATIONS : Nat := 210000

/-- Ideal model of the PBKDF2-SHA512 derived key: injective in
(password, salt). `deriveKey` in the source. -/
structure DerivedKey where
  password : String
  salt : Bytes
deriving DecidableEq

def deriveKey (password : String) (salt : Bytes) : DerivedKey :=
  ⟨password, salt⟩

/-- Keystream pad of the ideal CTR layer: some value depending on key and iv. -/
def keyPad (key : DerivedKey) (iv : Bytes) : Nat :=
  (strToBytes key.password).sum + key.salt.sum + iv.sum

/-- Ideal CTR encryption: per-byte XOR with the keystream pad (an involution,
length-preserving like real GCM). -/
def encBytes (key : DerivedKey) (iv : Bytes) (pt : Bytes) : Bytes :=
  pt.map (fun b => b ^^^ keyPad key iv)

/-- Ideal CTR decryption (same involution). -/
def decBytes (key : DerivedKey) (iv : Bytes) (ct : Bytes) : Bytes :=
  ct.map (fun b => b ^^^ keyPad key iv)

/-- Injective encoding of a buffer into one natural number. -/
def listEnc (l : Bytes) : Nat :=
  l.foldr (fun a n => Nat.pair a n + 1) 0

/-- Injective encoding of (key, iv, ciphertext) into one natural number:
the ideal GCM tag value. -/
def tagNat (key : DerivedKey) (iv : Bytes) (ct : Bytes) : Nat :=
  Nat.pair (Nat.pair (listEnc (strToBytes key.password)) (listEnc key.salt))
    (Nat.pair (listEnc iv) (listEnc ct))

/-- Ideal GCM authentication tag: a 16-entry buffer (AUTH_TAG_LENGTH)
determined injectively by (key, iv, ciphertext). -/
def mkTag (key : DerivedKey) (iv : Bytes) (ct : Bytes) : Bytes :=
  tagNat key iv ct :: List.replicate 15 0

/-! ## EncryptionService: base64 layer and file envelope -/

/-- `EncryptionResult` (types.ts): all fields base64 strings. -/
structure EncryptionResult where
  ciphertext : String
  salt : String
  iv : String
  authTag : String
deriving DecidableEq

/-- `EncryptionService.encryptToBase64`. The source draws `salt` and `iv`
from `crypto.randomBytes`; they are explicit entropy parameters here. -/
def encryptToBase64 (plaintext : String) (password : String)
    (salt iv : Bytes) : EncryptionResult :=
  let key := deriveKey password salt
  let ciphertext := encBytes key iv (strToBytes plaintext)
  let authTag := mkTag key iv ciphertext
  { ciphertext := bufToBase64 ciphertext
    salt := bufToBase64 salt
    iv := bufToBase64 iv
    authTag := bufToBase64 authTag }

/-- `EncryptionService.decryptFromBase64`: decodes the fields, derives the
key, and returns the plaintext on tag verification success, `none`
(the source's `null`, from the caught `decipher.final()` throw) on
authentication failure. -/
def decryptFromBase64 (base64Ciphertext : String) (password : String)
    (base64Salt base64Iv base64AuthTag : String) : Option String :=
  let ciphertext := base64ToBuf base64Ciphertext
  let salt := base64ToBuf base64Salt
  let iv := base64ToBuf base64Iv
  let authTag := base64ToBuf base64AuthTag
  let key := deriveKey password salt
  if authTag = mkTag key iv ciphertext then
    some (bytesToStr (decBytes key iv ciphertext))
  else
    none

/-- `EncryptedFileData` (types.ts). -/
structure EncryptedFileData where
  version : String
  hint : Option String
  ciphertext : String
  salt : String
  iv : String
  authTag : String
deriving DecidableEq

/-- `EncryptionService.encryptFileContent`. -/
def encryptFileContent (content : String) (password : String)
    (hint : Option String) (saltE ivE : Bytes) : EncryptedFileData :=
  let result := encryptToBase64 content password saltE ivE
  { version := "1.0"
    hint := hint
    ciphertext := result.ciphertext
    salt := result.salt
    iv := result.iv
    authTag := result.authTag }

/-- `EncryptionService.decryptFileData`. -/
def decryptFileData (fileData : EncryptedFileData) (password : String) :
    Option String :=
  decryptFromBase64 fileData.ciphertext password fileData.salt fileData.iv
    fileData.authTag

/-! ## Base64 codec lemmas -/

/-- Character class of the marker regexes: `[A-Za-z0-9+/=]`. -/
def isB64Char (c : Char) : Bool :=
  (('A' ≤ c ∧ c ≤ 'Z') ∨ ('a' ≤ c ∧ c ≤ 'z') ∨ ('0' ≤ c ∧ c ≤ '9')
    ∨ c = '+' ∨ c = '/' ∨ c = '=')

/-- Property of every character emitted by the base64 encoder. -/
def b64OutChar (c : Char) : Prop :=
  isB64Char c = true ∧ c ≠ ':' ∧ c ≠ '🔐' ∧ c ≠ '%'

instance (c : Char) : Decidable (b64OutChar c) := by
  unfold b64OutChar
  infer_instance

theorem b64DigitChar_spec :
    ∀ d, d < 64 → b64CharVal (b64DigitChar d) = d ∧ b64OutChar (b64DigitChar d)
      ∧ b64DigitChar d ≠ '=' := by decide

theorem natToB64_ne_nil (n : Nat) : natToB64 n ≠ [] := by
  rw [natToB64]
  split
  · simp
  · simp

theorem natToB64_mem (n : Nat) :
    ∀ c ∈ natToB64 n, b64OutChar c ∧ c ≠ '=' := by
  induction n using Nat.strong_induction_on with
  | _ n ih =>
    rw [natToB64]
    split
    · next h =>
      intro c hc
      simp only [List.mem_singleton] at hc
      subst hc
      exact ⟨(b64DigitChar_spec n h).2.1, (b64DigitChar_spec n h).2.2⟩
    · next h =>
      intro c hc
      rcases List.mem_append.mp hc with h1 | h2
      · exact ih (n / 64)
          (Nat.div_lt_self (Nat.lt_of_lt_of_le (by decide) (Nat.le_of_not_lt h)) (by decide))
          c h1
      · simp only [List.mem_singleton] at h2
        subst h2
        have hm : n % 64 < 64 := Nat.mod_lt _ (by decide)
        exact ⟨(b64DigitChar_spec _ hm).2.1, (b64DigitChar_spec _ hm).2.2⟩

theorem fromB64_append_digit (l : List Char) (c : Char) :
    fromB64 (l ++ [c]) = fromB64 l * 64 + b64CharVal c := by
  simp [fromB64, List.foldl_append]

theorem fromB64_natToB64 (n : Nat) : fromB64 (natToB64 n) = n := by
  induction n using Nat.strong_induction_on with
  | _ n ih =>
    rw [natToB64]
    split
    · next h =>
      simp [fromB64, (b64DigitChar_spec n h).1]
    · next h =>
      rw [fromB64_append_digit,
        ih (n / 64)
          (Nat.div_lt_self (Nat.lt_of_lt_of_le (by decide) (Nat.le_of_not_lt h)) (by decide)),
        (b64DigitChar_spec (n % 64) (Nat.mod_lt _ (by decide))).1]
      omega

theorem splitSep_no_sep (l : List Char) (hl : '=' ∉ l) : splitSep l = [l] := by
  induction l with
  | nil => rfl
  | cons c t ih =>
    have hc : ¬(c = '=') := fun h => hl (h ▸ List.mem_cons_self c t)
    have ht : '=' ∉ t := fun h => hl (List.mem_cons_of_mem c h)
    simp only [splitSep, if_neg hc, ih ht]

theorem splitSep_cons_ne (c : Char) (l : List Char) (hc : ¬(c = '=')) :
    splitSep (c :: l) =
      match splitSep l with
      | [] => [[c]]
      | g :: gs => (c :: g) :: gs := by
  simp only [splitSep, if_neg hc]

theorem splitSep_append_sep (x r : List Char) (hx : '=' ∉ x) :
    splitSep (x ++ '=' :: r) = x :: splitSep r := by
  induction x with
  | nil => simp [splitSep]
  | cons c t ih =>
    have hc : ¬(c = '=') := fun h => hx (h ▸ List.mem_cons_self c t)
    have ht : '=' ∉ t := fun h => hx (List.mem_cons_of_mem c h)
    rw [List.cons_append, splitSep_cons_ne c _ hc, ih ht]

theorem splitSep_joinSep (gs : List (List Char))
    (h : ∀ g ∈ gs, '=' ∉ g) (hne : gs ≠ []) :
    splitSep (joinSep gs) = gs := by
  induction gs with
  | nil => exact absurd rfl hne
  | cons g gs ih =>
    cases gs with
    | nil => exact splitSep_no_sep g (h g (List.mem_cons_self g []))
    | cons g2 gs2 =>
      have hg : '=' ∉ g := h g (List.mem_cons_self _ _)
      have hrest : ∀ x ∈ g2 :: gs2, '=' ∉ x := fun x hx =>
        h x (List.mem_cons_of_mem g hx)
      show splitSep (g ++ '=' :: joinSep (g2 :: gs2)) = g :: g2 :: gs2
      rw [splitSep_append_sep g _ hg, ih hrest (by simp)]

theorem joinSep_ne_nil (g : List Char) (gs : List (List Char)) (hg : g ≠ []) :
    joinSep (g :: gs) ≠ [] := by
  cases gs with
  | nil => exact hg
  | cons g2 gs2 =>
    show g ++ '=' :: joinSep (g2 :: gs2) ≠ []
    simp

theorem base64ToBuf_mk (l : List Char) (hl : l ≠ []) :
    base64ToBuf ⟨l⟩ = (splitSep l).map fromB64 := by
  cases l with
  | nil => exact absurd rfl hl
  | cons c cs => rfl

/-- The base64 codec round-trips: decoding an encoded buffer gives it back. -/
theorem base64_roundtrip (l : Bytes) : base64ToBuf (bufToBase64 l) = l := by
  cases l with
  | nil => rfl
  | cons b bs =>
    have hne : joinSep (List.map natToB64 (b :: bs)) ≠ [] := by
      simp only [List.map_cons]
      exact joinSep_ne_nil _ _ (natToB64_ne_nil b)
    have hsep : ∀ g ∈ List.map natToB64 (b :: bs), '=' ∉ g := by
      intro g hg
      rcases List.mem_map.mp hg with ⟨n, _, rfl⟩
      intro hmem
      exact (natToB64_mem n '=' hmem).2 rfl
    rw [show bufToBase64 (b :: bs) = ⟨joinSep (List.map natToB64 (b :: bs))⟩ from rfl]
    rw [base64ToBuf_mk _ hne, splitSep_joinSep _ hsep (by simp), List.map_map]
    have hid : (fromB64 ∘ natToB64) = id := by
      funext n
      exact fromB64_natToB64 n
    rw [hid, List.map_id]

/-- Every character of an encoded buffer is in the base64 class and is not
a glyph, colon, or percent sign. -/
theorem bufToBase64_chars (l : Bytes) :
    ∀ c ∈ (bufToBase64 l).data, b64OutChar c := by
  have key : ∀ gs : List (List Char), (∀ g ∈ gs, ∀ c ∈ g, b64OutChar c) →
      ∀ c ∈ joinSep gs, b64OutChar c := by
    intro gs
    induction gs with
    | nil => intro _ c hc; simp [joinSep] at hc
    | cons g gs ih =>
      intro hall c hc
      cases gs with
      | nil => exact hall g (List.mem_cons_self _ _) c hc
      | cons g2 gs2 =>
        rcases List.mem_append.mp hc with h1 | h2
        · exact hall g (List.mem_cons_self _ _) c h1
        · rcases List.mem_cons.mp h2 with rfl | h3
          · exact ⟨by decide, by decide, by decide, by decide⟩
          · exact ih (fun x hx => hall x (List.mem_cons_of_mem _ hx)) c h3
  intro c hc
  refine key ((l.map natToB64)) ?_ c hc
  intro g hg c2 hc2
  rcases List.mem_map.mp hg with ⟨n, _, rfl⟩
  exact (natToB64_mem n c2 hc2).1

theorem bufToBase64_ne_empty (l : Bytes) (hl : l ≠ []) :
    (bufToBase64 l).data ≠ [] := by
  cases l with
  | nil => exact absurd rfl hl
  | cons b bs =>
    show joinSep ((b :: bs).map natToB64) ≠ []
    simp only [List.map_cons]
    exact joinSep_ne_nil _ _ (natToB64_ne_nil b)

/-! ## Cipher model lemmas -/

theorem bytesToStr_strToBytes (s : String) : bytesToStr (strToBytes s) = s := by
  cases s with
  | mk data =>
    show String.mk (List.map Char.ofNat (List.map Char.toNat data)) = String.mk data
    rw [List.map_map]
    congr 1
    rw [show (Char.ofNat ∘ Char.toNat) = id from funext fun c => Char.ofNat_toNat c]
    exact List.map_id data

theorem decBytes_encBytes (key : DerivedKey) (iv pt : Bytes) :
    decBytes key iv (encBytes key iv pt) = pt := by
  unfold decBytes encBytes
  rw [List.map_map]
  have h : ((fun b => b ^^^ keyPad key iv) ∘ fun b => b ^^^ keyPad key iv) = id := by
    funext b
    exact Nat.xor_cancel_right _ b
  rw [h, List.map_id]

theorem listEnc_injective : ∀ {l1 l2 : Bytes}, listEnc l1 = listEnc l2 → l1 = l2 := by
  intro l1
  induction l1 with
  | nil =>
    intro l2 h
    cases l2 with
    | nil => rfl
    | cons b t => exact absurd h.symm (Nat.succ_ne_zero _)
  | cons a t ih =>
    intro l2 h
    cases l2 with
    | nil => exact absurd h (Nat.succ_ne_zero _)
    | cons b t2 =>
      have hp : Nat.pair a (listEnc t) = Nat.pair b (listEnc t2) :=
        Nat.succ_injective h
      rcases Nat.pair_eq_pair.mp hp with ⟨rfl, h2⟩
      rw [ih h2]

theorem charToNat_injective {a b : Char} (h : a.toNat = b.toNat) : a = b := by
  have h2 := congrArg Char.ofNat h
  rwa [Char.ofNat_toNat, Char.ofNat_toNat] at h2

theorem strToBytes_injective {s1 s2 : String} (h : strToBytes s1 = strToBytes s2) :
    s1 = s2 := by
  cases s1 with
  | mk d1 =>
    cases s2 with
    | mk d2 =>
      congr 1
      exact List.map_injective_iff.mpr (fun a b hab => charToNat_injective hab) h

theorem mkTag_password_ne {w1 w2 : String} (salt iv ct : Bytes) (h : w1 ≠ w2) :
    mkTag (deriveKey w1 salt) iv ct ≠ mkTag (deriveKey w2 salt) iv ct := by
  intro heq
  apply h
  have h1 : tagNat (deriveKey w1 salt) iv ct = tagNat (deriveKey w2 salt) iv ct :=
    List.head_eq_of_cons_eq heq
  unfold tagNat at h1
  have h2 := (Nat.pair_eq_pair.mp h1).1
  have h3 := (Nat.pair_eq_pair.mp h2).1
  exact strToBytes_injective (listEnc_injective h3)

/-- Decryption with the same password inverts `encryptToBase64`. -/
theorem decrypt_encrypt_same (P W : String) (salt iv : Bytes) :
    decryptFromBase64 (encryptToBase64 P W salt iv).ciphertext W
      (encryptToBase64 P W salt iv).salt (encryptToBase64 P W salt iv).iv
      (encryptToBase64 P W salt iv).authTag = some P := by
  unfold decryptFromBase64 encryptToBase64
  simp only [base64_roundtrip]
  rw [if_pos trivial, decBytes_encBytes, bytesToStr_strToBytes]

/-- Decryption with a different password fails the tag check. -/
theorem decrypt_encrypt_wrong (P W1 W2 : String) (salt iv : Bytes) (h : W1 ≠ W2) :
    decryptFromBase64 (encryptToBase64 P W1 salt iv).ciphertext W2
      (encryptToBase64 P W1 salt iv).salt (encryptToBase64 P W1 salt iv).iv
      (encryptToBase64 P W1 salt iv).authTag = none := by
  unfold decryptFromBase64 encryptToBase64
  simp only [base64_roundtrip]
  rw [if_neg]
  exact mkTag_password_ne salt iv _ h

/-! ## Claim C1, C2, C4 -/

/-- C1: for every plaintext string P, every password W, every optional hint,
and every salt/iv drawn at encryption time, decrypting the envelope produced
by `encryptFileContent P W h` with the same password W succeeds and returns
exactly P: `decryptFileData (encryptFileContent P W h) W = some P`. -/
theorem c1_file_roundtrip (P W : String) (hint : Option String)
    (salt iv : Bytes) :
    decryptFileData (encryptFileContent P W hint salt iv) W = some P :=
  decrypt_encrypt_same P W salt iv

/-- C2: for every plaintext P and distinct passwords W1 ≠ W2, decrypting the
envelope produced with W1 using W2 yields the authentication-failure outcome
`none` (the source's `null`), never a plaintext. -/
theorem c2_wrong_password (P W1 W2 : String) (hint : Option String)
    (salt iv : Bytes) (h : W1 ≠ W2) :
    decryptFileData (encryptFileContent P W1 hint salt iv) W2 = none :=
  decrypt_encrypt_wrong P W1 W2 salt iv h

/-- Witness for C2 at concrete inputs. -/
theorem c2_wrong_password_witness :
    "correct-horse" ≠ "wrong" ∧
      decryptFileData
        (encryptFileContent "hello" "correct-horse" (some "animal") [] []) "wrong"
        = none :=
  ⟨by decide, c2_wrong_password "hello" "correct-horse" "wrong" (some "animal") [] []
    (by decide)⟩

/-- C4 counterexample: an envelope whose version field is `"9.9"` (not the
known value `"1.0"`) is NOT rejected: with the correct password,
`decryptFileData` still releases the plaintext, contradicting the claim that
such an envelope fails regardless of the password. -/
theorem c4_counterexample :
    decryptFileData
      { encryptFileContent "hello" "pw" none [] [] with version := "9.9" } "pw"
      = some "hello" :=
  decrypt_encrypt_same "hello" "pw" [] []

/-- C4 amended: `decryptFileData` never inspects the `version` field; an
envelope with an unknown version is processed under the current layout and
its decryption outcome is identical to that of the same envelope with any
other version string. -/
theorem c4_version_ignored (fd : EncryptedFileData) (pw v : String) :
    decryptFileData { fd with version := v } pw = decryptFileData fd pw := rfl

/-! ## InlineMarkerCodec: in-place encryption -/

/-- Result record of `parseInPlaceEncrypted` (`{ hint?, combinedData }`);
an absent hint is the source's `undefined`. -/
structure ParsedInPlace where
  hint : Option String
  combinedData : String
deriving DecidableEq

/-- The hint character class `[^:🔐]` of the marker regexes. -/
def isHintChar (c : Char) : Bool := ¬(c = ':' ∨ c = '🔐')

/-- The regex `🔐([^:🔐]+):([A-Za-z0-9+/=]+)🔐` tried at one start position.
At a fixed start the regex is deterministic: the hint group consists of
characters that cannot be `':'`, so it must end at the first `':'`, and the
data group must end at the first character outside the base64 class, which
the pattern requires to be the closing glyph; backtracking can never produce
a different match. -/
def match1At : List Char → Option (List Char × List Char)
  | [] => none
  | c :: rest =>
    if c = '🔐' then
      let h := rest.takeWhile isHintChar
      if h.isEmpty then none
      else
        match rest.dropWhile isHintChar with
        | [] => none
        | c1 :: r2 =>
          if c1 = ':' then
            let d := r2.takeWhile isB64Char
            if d.isEmpty then none
            else
              match r2.dropWhile isB64Char with
              | [] => none
              | c2 :: _ => if c2 = '🔐' then some (h, d) else none
          else none
    else none

/-- The regex `🔐([A-Za-z0-9+/=]+)🔐` tried at one start position. -/
def match2At : List Char → Option (List Char)
  | [] => none
  | c :: rest =>
    if c = '🔐' then
      let d := rest.takeWhile isB64Char
      if d.isEmpty then none
      else
        match rest.dropWhile isB64Char with
        | [] => none
        | c1 :: _ => if c1 = '🔐' then some d else none
    else none

/-- The regex `%%🔐([^:🔐]+):([A-Za-z0-9+/=]+)🔐%%` tried at one start
position. -/
def match3At : List Char → Option (List Char × List Char)
  | c0 :: c1 :: l =>
    if c0 = '%' ∧ c1 = '%' then
      match match1At l with
      | none => none
      | some (h, d) =>
        match (l.drop 1).dropWhile isHintChar with
        | [] => none
        | _ :: r2 =>
          match r2.dropWhile isB64Char with
          | _ :: '%' :: '%' :: _ => some (h, d)
          | _ => none
    else none
  | _ => none

/-- The regex `%%🔐([A-Za-z0-9+/=]+)🔐%%` tried at one start position. -/
def match4At : List Char → Option (List Char)
  | c0 :: c1 :: l =>
    if c0 = '%' ∧ c1 = '%' then
      match match2At l with
      | none => none
      | some d =>
        match (l.drop 1).dropWhile isB64Char with
        | _ :: '%' :: '%' :: _ => some d
        | _ => none
    else none
  | _ => none

/-- `RegExp.exec` of the first pattern: leftmost start position that
matches. -/
def findMatch1 : List Char → Option (List Char × List Char)
  | [] => none
  | c :: t =>
    match match1At (c :: t) with
    | some r => some r
    | none => findMatch1 t

def findMatch2 : List Char → Option (List Char)
  | [] => none
  | c :: t =>
    match match2At (c :: t) with
    | some r => some r
    | none => findMatch2 t

def findMatch3 : List Char → Option (List Char × List Char)
  | [] => none
  | c :: t =>
    match match3At (c :: t) with
    | some r => some r
    | none => findMatch3 t

def findMatch4 : List Char → Option (List Char)
  | [] => none
  | c :: t =>
    match match4At (c :: t) with
    | some r => some r
    | none => findMatch4 t

/-- `EncryptionService.parseInPlaceEncrypted`: the four patterns are tried
in source order; a two-group match yields `{hint, combinedData}`, a
one-group match yields `{combinedData}`. -/
def parseInPlaceEncrypted (text : String) : Option ParsedInPlace :=
  match findMatch1 text.data with
  | some (h, d) => some ⟨some ⟨h⟩, ⟨d⟩⟩
  | none =>
    match findMatch2 text.data with
    | some d => some ⟨none, ⟨d⟩⟩
    | none =>
      match findMatch3 text.data with
      | some (h, d) => some ⟨some ⟨h⟩, ⟨d⟩⟩
      | none =>
        match findMatch4 text.data with
        | some d => some ⟨none, ⟨d⟩⟩
        | none => none

/-- The combined buffer `salt ‖ iv ‖ authTag ‖ ciphertext` built by
`encryptInPlace` from the base64 fields of `encryptToBase64`. -/
def inPlaceCombined (text password : String) (saltE ivE : Bytes) : Bytes :=
  base64ToBuf (encryptToBase64 text password saltE ivE).salt
    ++ (base64ToBuf (encryptToBase64 text password saltE ivE).iv
      ++ (base64ToBuf (encryptToBase64 text password saltE ivE).authTag
        ++ base64ToBuf (encryptToBase64 text password saltE ivE).ciphertext))

/-- `EncryptionService.encryptInPlace`. The JS condition ``hint ? `...` : ...``
is truthy exactly when the hint is present and nonempty. -/
def encryptInPlace (text password : String) (hint : Option String)
    (showMarker : Bool) (saltE ivE : Bytes) : String :=
  let combinedBase64 := bufToBase64 (inPlaceCombined text password saltE ivE)
  let data :=
    match hint with
    | some h => if h = "" then combinedBase64 else h ++ ":" ++ combinedBase64
    | none => combinedBase64
  let mOpen := if showMarker then "🔐" else "%%🔐"
  let mClose := if showMarker then "🔐" else "🔐%%"
  mOpen ++ data ++ mClose

/-- `EncryptionService.decryptInPlace`: parse, decode the combined blob,
reject blobs shorter than 48 bytes, then split at the fixed offsets
0:16 / 16:32 / 32:48 / 48:end (`subarray`) and decrypt. -/
def decryptInPlace (encryptedText password : String) : Option String :=
  match parseInPlaceEncrypted encryptedText with
  | none => none
  | some parsed =>
    let combined := base64ToBuf parsed.combinedData
    if combined.length < SALT_LENGTH + IV_LENGTH + AUTH_TAG_LENGTH then none
    else
      let salt := combined.take SALT_LENGTH
      let iv := (combined.drop SALT_LENGTH).take IV_LENGTH
      let authTag := (combined.drop (SALT_LENGTH + IV_LENGTH)).take AUTH_TAG_LENGTH
      let actualCiphertext :=
        combined.drop (SALT_LENGTH + IV_LENGTH + AUTH_TAG_LENGTH)
      decryptFromBase64 (bufToBase64 actualCiphertext) password
        (bufToBase64 salt) (bufToBase64 iv) (bufToBase64 authTag)

/-! ## Scanner lemmas -/

theorem takeWhile_append_stop {p : Char → Bool} :
    ∀ (l1 : List Char) (x : Char) (l2 : List Char),
      (∀ c ∈ l1, p c = true) → p x = false →
      (l1 ++ x :: l2).takeWhile p = l1 ∧ (l1 ++ x :: l2).dropWhile p = x :: l2 := by
  intro l1
  induction l1 with
  | nil =>
    intro x l2 _ hx
    constructor
    · simp [List.takeWhile, hx]
    · simp [List.dropWhile, hx]
  | cons a t ih =>
    intro x l2 hall hx
    have ha : p a = true := hall a (List.mem_cons_self _ _)
    have ht : ∀ c ∈ t, p c = true := fun c hc => hall c (List.mem_cons_of_mem _ hc)
    have ihres := ih x l2 ht hx
    constructor
    · simp [List.takeWhile, ha, ihres.1]
    · simp [List.dropWhile, ha, ihres.2]

theorem isHintChar_colon : isHintChar ':' = false := by decide

theorem isHintChar_glyph : isHintChar '🔐' = false := by decide

theorem isB64Char_glyph : isB64Char '🔐' = false := by decide

theorem isHintChar_of_ne {c : Char} (h1 : c ≠ ':') (h2 : c ≠ '🔐') :
    isHintChar c = true := by
  simp [isHintChar, h1, h2]

theorem isEmpty_false_of_ne_nil {l : List Char} (h : l ≠ []) : l.isEmpty = false := by
  cases l with
  | nil => exact absurd rfl h
  | cons a t => rfl

/-- The first pattern matches a well-formed with-hint marker at its start. -/
theorem match1At_marker (hint data rest : List Char) (hh : hint ≠ [])
    (hhc : ∀ c ∈ hint, isHintChar c = true) (hd : data ≠ [])
    (hdc : ∀ c ∈ data, isB64Char c = true) :
    match1At ('🔐' :: (hint ++ ':' :: (data ++ '🔐' :: rest))) = some (hint, data) := by
  have hspan1 := takeWhile_append_stop hint ':' (data ++ '🔐' :: rest) hhc isHintChar_colon
  have hspan2 := takeWhile_append_stop data '🔐' rest hdc isB64Char_glyph
  rw [match1At]
  simp [hspan1.1, hspan1.2, hspan2.1, hspan2.2, isEmpty_false_of_ne_nil hh,
    isEmpty_false_of_ne_nil hd]

/-- The first pattern cannot match anywhere in text with no `':'`. -/
theorem match1At_none_no_colon (l : List Char) (h : ':' ∉ l) : match1At l = none := by
  cases l with
  | nil => rfl
  | cons c t =>
    rw [match1At]
    by_cases hc : c = '🔐'
    · rw [if_pos hc]
      cases hdrop : t.dropWhile isHintChar with
      | nil => simp [hdrop]
      | cons c1 r2 =>
        have hc1 : c1 ∈ t := (List.dropWhile_sublist _).mem (hdrop ▸ List.mem_cons_self c1 r2)
        have hne : ¬(c1 = ':') := by
          intro heq
          exact h (List.mem_cons_of_mem c (heq ▸ hc1))
        simp [hdrop, hne]
    · rw [if_neg hc]

theorem findMatch1_none_no_colon (l : List Char) (h : ':' ∉ l) :
    findMatch1 l = none := by
  induction l with
  | nil => rfl
  | cons c t ih =>
    have ht : ':' ∉ t := fun hm => h (List.mem_cons_of_mem c hm)
    rw [findMatch1, match1At_none_no_colon (c :: t) h, ih ht]

/-- After a glyph, if no `':'` occurs before the next glyph, the hint run
stops at a glyph, so the first pattern fails at this start position. -/
theorem dropWhile_hint_to_glyph (l1 l2 : List Char) (h : ':' ∉ l1) :
    ∃ r, (l1 ++ '🔐' :: l2).dropWhile isHintChar = '🔐' :: r := by
  induction l1 with
  | nil => exact ⟨l2, by simp [List.dropWhile, isHintChar_glyph]⟩
  | cons c t ih =>
    by_cases hc : c = '🔐'
    · subst hc
      exact ⟨t ++ '🔐' :: l2, by simp [List.dropWhile, isHintChar_glyph]⟩
    · have hcol : c ≠ ':' := fun heq => h (heq ▸ List.mem_cons_self c t)
      have hhint : isHintChar c = true := isHintChar_of_ne hcol hc
      rcases ih (fun hm => h (List.mem_cons_of_mem c hm)) with ⟨r, hr⟩
      exact ⟨r, by simp [List.dropWhile, hhint, hr]⟩

theorem match1At_glyph_shape (l1 l2 : List Char) (h : ':' ∉ l1) :
    match1At ('🔐' :: (l1 ++ '🔐' :: l2)) = none := by
  rcases dropWhile_hint_to_glyph l1 l2 h with ⟨r, hr⟩
  rw [match1At, if_pos rfl]
  simp [hr]

/-- `exec` of the with-hint pattern on text containing a well-formed
with-hint marker after a `':'`-free prefix: the marker is found and the
groups are exactly the hint and the data. -/
theorem findMatch1_marker (pre hint data suffix : List Char) (hpre : ':' ∉ pre)
    (hh : hint ≠ []) (hhc : ∀ c ∈ hint, isHintChar c = true) (hd : data ≠ [])
    (hdc : ∀ c ∈ data, isB64Char c = true) :
    findMatch1 (pre ++ '🔐' :: (hint ++ ':' :: (data ++ '🔐' :: suffix)))
      = some (hint, data) := by
  induction pre with
  | nil =>
    rw [List.nil_append, findMatch1, match1At_marker hint data suffix hh hhc hd hdc]
  | cons c pre2 ih =>
    have hpre2 : ':' ∉ pre2 := fun hm => hpre (List.mem_cons_of_mem c hm)
    have hnone : match1At (c :: (pre2 ++ '🔐' :: (hint ++ ':' :: (data ++ '🔐' :: suffix))))
        = none := by
      by_cases hc : c = '🔐'
      · subst hc
        exact match1At_glyph_shape pre2 _ hpre2
      · rw [match1At, if_neg hc]
    rw [List.cons_append, findMatch1, hnone, ih hpre2]

/-- The second pattern matches a well-formed no-hint marker at its start. -/
theorem match2At_marker (data rest : List Char) (hd : data ≠ [])
    (hdc : ∀ c ∈ data, isB64Char c = true) :
    match2At ('🔐' :: (data ++ '🔐' :: rest)) = some data := by
  have hspan := takeWhile_append_stop data '🔐' rest hdc isB64Char_glyph
  rw [match2At]
  simp [hspan.1, hspan.2, isEmpty_false_of_ne_nil hd]

theorem match2At_not_glyph (c : Char) (t : List Char) (hc : ¬(c = '🔐')) :
    match2At (c :: t) = none := by
  rw [match2At, if_neg hc]

/-- Parsing a visible with-hint marker embedded in arbitrary text whose
prefix is free of `':'`. -/
theorem parse_withHint_data (textS hS dS : String) (preL sufL : List Char)
    (hdata : textS.data = preL ++ '🔐' :: (hS.data ++ ':' :: (dS.data ++ '🔐' :: sufL)))
    (hpre : ':' ∉ preL) (hh : hS.data ≠ [])
    (hhc : ∀ c ∈ hS.data, isHintChar c = true) (hd : dS.data ≠ [])
    (hdc : ∀ c ∈ dS.data, isB64Char c = true) :
    parseInPlaceEncrypted textS = some ⟨some hS, dS⟩ := by
  unfold parseInPlaceEncrypted
  rw [hdata, findMatch1_marker preL hS.data dS.data sufL hpre hh hhc hd hdc]

/-- Parsing a visible no-hint marker standing alone. -/
theorem parse_noHint_visible (dS : String) (hd : dS.data ≠ [])
    (hdc : ∀ c ∈ dS.data, isB64Char c = true) (hnc : ':' ∉ dS.data)
    (textS : String) (hdata : textS.data = '🔐' :: (dS.data ++ ['🔐'])) :
    parseInPlaceEncrypted textS = some ⟨none, dS⟩ := by
  have hnocolon : ':' ∉ textS.data := by
    rw [hdata]
    intro hm
    rcases List.mem_cons.mp hm with heq | hm2
    · exact absurd heq (by decide)
    · rcases List.mem_append.mp hm2 with h1 | h2
      · exact hnc h1
      · simp at h2
  unfold parseInPlaceEncrypted
  rw [findMatch1_none_no_colon textS.data hnocolon, hdata, findMatch2,
    match2At_marker dS.data [] hd hdc]

/-- Parsing a hidden no-hint marker standing alone: the second (visible)
pattern already matches inside the `%%`-wrapped marker. -/
theorem parse_noHint_hidden (dS : String) (hd : dS.data ≠ [])
    (hdc : ∀ c ∈ dS.data, isB64Char c = true) (hnc : ':' ∉ dS.data)
    (textS : String)
    (hdata : textS.data = '%' :: '%' :: '🔐' :: (dS.data ++ '🔐' :: '%' :: '%' :: [])) :
    parseInPlaceEncrypted textS = some ⟨none, dS⟩ := by
  have hnocolon : ':' ∉ textS.data := by
    rw [hdata]
    intro hm
    simp only [List.mem_cons, List.mem_append, List.not_mem_nil, or_false] at hm
    rcases hm with heq | heq | heq | hm2
    · exact absurd heq (by decide)
    · exact absurd heq (by decide)
    · exact absurd heq (by decide)
    · rcases hm2 with h1 | h2
      · exact hnc h1
      · rcases h2 with heq | heq | heq
        · exact absurd heq (by decide)
        · exact absurd heq (by decide)
        · exact absurd heq (by decide)
  unfold parseInPlaceEncrypted
  rw [findMatch1_none_no_colon textS.data hnocolon, hdata, findMatch2,
    match2At_not_glyph '%' _ (by decide), findMatch2,
    match2At_not_glyph '%' _ (by decide), findMatch2,
    match2At_marker dS.data ['%', '%'] hd hdc]

/-! ## encryptInPlace / decryptInPlace lemmas -/

theorem encryptInPlace_withHint (text pw h : String) (vis : Bool) (s i : Bytes)
    (hne : ¬(h = "")) :
    encryptInPlace text pw (some h) vis s i
      = (if vis then "🔐" else "%%🔐")
        ++ (h ++ ":" ++ bufToBase64 (inPlaceCombined text pw s i))
        ++ (if vis then "🔐" else "🔐%%") := by
  unfold encryptInPlace
  simp [hne]

theorem encryptInPlace_noHint (text pw : String) (vis : Bool) (s i : Bytes) :
    encryptInPlace text pw none vis s i
      = (if vis then "🔐" else "%%🔐")
        ++ bufToBase64 (inPlaceCombined text pw s i)
        ++ (if vis then "🔐" else "🔐%%") := by
  unfold encryptInPlace
  simp

theorem encryptInPlace_emptyHint (text pw : String) (vis : Bool) (s i : Bytes) :
    encryptInPlace text pw (some "") vis s i = encryptInPlace text pw none vis s i := by
  unfold encryptInPlace
  simp

theorem inPlaceCombined_eq (text pw : String) (s i : Bytes) :
    inPlaceCombined text pw s i
      = s ++ (i ++ (mkTag (deriveKey pw s) i (encBytes (deriveKey pw s) i (strToBytes text))
          ++ encBytes (deriveKey pw s) i (strToBytes text))) := by
  unfold inPlaceCombined encryptToBase64
  simp only [base64_roundtrip]

theorem inPlaceCombined_ne_nil (text pw : String) (s i : Bytes) :
    inPlaceCombined text pw s i ≠ [] := by
  rw [inPlaceCombined_eq]
  intro h
  rcases List.append_eq_nil.mp h with ⟨_, h2⟩
  rcases List.append_eq_nil.mp h2 with ⟨_, h3⟩
  rcases List.append_eq_nil.mp h3 with ⟨h4, _⟩
  exact absurd h4 (by simp [mkTag])

theorem inPlaceB64_ne_nil (text pw : String) (s i : Bytes) :
    (bufToBase64 (inPlaceCombined text pw s i)).data ≠ [] :=
  bufToBase64_ne_empty _ (inPlaceCombined_ne_nil text pw s i)

theorem inPlaceB64_chars (text pw : String) (s i : Bytes) :
    ∀ c ∈ (bufToBase64 (inPlaceCombined text pw s i)).data, isB64Char c = true :=
  fun c hc => (bufToBase64_chars _ c hc).1

theorem inPlaceB64_no_colon (text pw : String) (s i : Bytes) :
    ':' ∉ (bufToBase64 (inPlaceCombined text pw s i)).data :=
  fun hc => (bufToBase64_chars _ ':' hc).2.1 rfl

/-- The fixed-offset split of `decryptInPlace`: when the parsed blob is the
concatenation of three 16-byte components and a tail, the slices at
0:16 / 16:32 / 32:48 / 48:end recover exactly the components. -/
theorem decryptInPlace_split (textS pw : String) (p : ParsedInPlace)
    (hp : parseInPlaceEncrypted textS = some p)
    (a b c d : Bytes) (ha : a.length = 16) (hb : b.length = 16) (hc : c.length = 16)
    (hcomb : base64ToBuf p.combinedData = a ++ (b ++ (c ++ d))) :
    decryptInPlace textS pw
      = decryptFromBase64 (bufToBase64 d) pw (bufToBase64 a) (bufToBase64 b)
          (bufToBase64 c) := by
  have hlen : (a ++ (b ++ (c ++ d))).length = 48 + d.length := by
    simp [List.length_append, ha, hb, hc]
    omega
  have hassoc2 : a ++ (b ++ (c ++ d)) = (a ++ b) ++ (c ++ d) := by
    simp [List.append_assoc]
  have hassoc3 : a ++ (b ++ (c ++ d)) = ((a ++ b) ++ c) ++ d := by
    simp [List.append_assoc]
  unfold decryptInPlace
  rw [hp]
  simp only [hcomb, SALT_LENGTH, IV_LENGTH, AUTH_TAG_LENGTH]
  rw [if_neg (by rw [hlen]; omega)]
  have htake1 : (a ++ (b ++ (c ++ d))).take 16 = a := List.take_left' ha
  have hdrop1 : (a ++ (b ++ (c ++ d))).drop 16 = b ++ (c ++ d) := List.drop_left' ha
  have htake2 : ((a ++ (b ++ (c ++ d))).drop 16).take 16 = b := by
    rw [hdrop1]
    exact List.take_left' hb
  have hdrop2 : (a ++ (b ++ (c ++ d))).drop (16 + 16) = c ++ d := by
    rw [hassoc2]
    exact List.drop_left' (by simp [List.length_append, ha, hb])
  have htake3 : ((a ++ (b ++ (c ++ d))).drop (16 + 16)).take 16 = c := by
    rw [hdrop2]
    exact List.take_left' hc
  have hdrop3 : (a ++ (b ++ (c ++ d))).drop (16 + 16 + 16) = d := by
    rw [hassoc3]
    exact List.drop_left' (by simp [List.length_append, ha, hb, hc])
  rw [htake1, htake2, htake3, hdrop3]

theorem encryptToBase64_fields (text pw : String) (s i : Bytes) :
    (encryptToBase64 text pw s i).salt = bufToBase64 s
      ∧ (encryptToBase64 text pw s i).iv = bufToBase64 i
      ∧ (encryptToBase64 text pw s i).authTag
          = bufToBase64 (mkTag (deriveKey pw s) i (encBytes (deriveKey pw s) i (strToBytes text)))
      ∧ (encryptToBase64 text pw s i).ciphertext
          = bufToBase64 (encBytes (deriveKey pw s) i (strToBytes text)) :=
  ⟨rfl, rfl, rfl, rfl⟩

/-- Decrypting a parsed in-place marker whose blob was built by
`encryptInPlace` with the same password yields the original text. -/
theorem decryptInPlace_core_same (text pw : String) (s i : Bytes)
    (hs : s.length = 16) (hi : i.length = 16) (textS : String) (hOpt : Option String)
    (hp : parseInPlaceEncrypted textS
      = some ⟨hOpt, bufToBase64 (inPlaceCombined text pw s i)⟩) :
    decryptInPlace textS pw = some text := by
  rw [inPlaceCombined_eq] at hp
  rw [decryptInPlace_split textS pw _ hp s i
    (mkTag (deriveKey pw s) i (encBytes (deriveKey pw s) i (strToBytes text)))
    (encBytes (deriveKey pw s) i (strToBytes text)) hs hi (by simp [mkTag])
    (base64_roundtrip _)]
  have h2 := decrypt_encrypt_same text pw s i
  rcases encryptToBase64_fields text pw s i with ⟨f1, f2, f3, f4⟩
  rw [f1, f2, f3, f4] at h2
  exact h2

/-- Decrypting a parsed in-place marker whose blob was built by
`encryptInPlace` with a different password fails authentication. -/
theorem decryptInPlace_core_wrong (text pw1 pw2 : String) (s i : Bytes)
    (hs : s.length = 16) (hi : i.length = 16) (hne : pw1 ≠ pw2)
    (textS : String) (hOpt : Option String)
    (hp : parseInPlaceEncrypted textS
      = some ⟨hOpt, bufToBase64 (inPlaceCombined text pw1 s i)⟩) :
    decryptInPlace textS pw2 = none := by
  rw [inPlaceCombined_eq] at hp
  rw [decryptInPlace_split textS pw2 _ hp s i
    (mkTag (deriveKey pw1 s) i (encBytes (deriveKey pw1 s) i (strToBytes text)))
    (encBytes (deriveKey pw1 s) i (strToBytes text)) hs hi (by simp [mkTag])
    (base64_roundtrip _)]
  have h2 := decrypt_encrypt_wrong text pw1 pw2 s i hne
  rcases encryptToBase64_fields text pw1 s i with ⟨f1, f2, f3, f4⟩
  rw [f1, f2, f3, f4] at h2
  exact h2

/-! ## Parsing the output of encryptInPlace -/

theorem parse_encryptInPlace_withHint (text pw h : String) (vis : Bool)
    (s i : Bytes) (hne : ¬(h = ""))
    (hhc : ∀ c ∈ h.data, isHintChar c = true) :
    parseInPlaceEncrypted (encryptInPlace text pw (some h) vis s i)
      = some ⟨some h, bufToBase64 (inPlaceCombined text pw s i)⟩ := by
  have hh : h.data ≠ [] := by
    intro hd
    apply hne
    cases h with
    | mk l => simp at hd; rw [hd]
  cases vis with
  | true =>
    refine parse_withHint_data _ h (bufToBase64 (inPlaceCombined text pw s i))
      [] [] ?_ (by simp) hh hhc (inPlaceB64_ne_nil text pw s i)
      (inPlaceB64_chars text pw s i)
    rw [encryptInPlace_withHint text pw h true s i hne]
    simp [String.data_append]
  | false =>
    refine parse_withHint_data _ h (bufToBase64 (inPlaceCombined text pw s i))
      ['%', '%'] ['%', '%'] ?_ (by decide) hh hhc (inPlaceB64_ne_nil text pw s i)
      (inPlaceB64_chars text pw s i)
    rw [encryptInPlace_withHint text pw h false s i hne]
    simp [String.data_append]

theorem parse_encryptInPlace_noHint (text pw : String) (vis : Bool) (s i : Bytes) :
    parseInPlaceEncrypted (encryptInPlace text pw none vis s i)
      = some ⟨none, bufToBase64 (inPlaceCombined text pw s i)⟩ := by
  cases vis with
  | true =>
    refine parse_noHint_visible (bufToBase64 (inPlaceCombined text pw s i))
      (inPlaceB64_ne_nil text pw s i) (inPlaceB64_chars text pw s i)
      (inPlaceB64_no_colon text pw s i) _ ?_
    rw [encryptInPlace_noHint text pw true s i]
    simp [String.data_append]
  | false =>
    refine parse_noHint_hidden (bufToBase64 (inPlaceCombined text pw s i))
      (inPlaceB64_ne_nil text pw s i) (inPlaceB64_chars text pw s i)
      (inPlaceB64_no_colon text pw s i) _ ?_
    rw [encryptInPlace_noHint text pw false s i]
    simp [String.data_append]

/-! ## Claims C3, C5, C6, C7, C9 -/

/-- A present hint survives encoding exactly when it is nonempty and free of
the delimiter `':'` and the marker glyph (the hint character class). -/
def hintUsable : Option String → Bool
  | none => true
  | some h => if h = "" then false else h.data.all isHintChar

/-- C3 counterexample: a structural parse failure (no marker in the text)
and an authentication failure (wrong password on a well-formed marker) are
reported with the identical outcome `none` (the source's `null`), so the
caller cannot tell the two failure classes apart. -/
theorem c3_counterexample :
    parseInPlaceEncrypted "no marker here" = none
    ∧ decryptInPlace "no marker here" "pw2" = none
    ∧ (parseInPlaceEncrypted
        (encryptInPlace "hello" "pw1" none true (List.replicate 16 0)
          (List.replicate 16 0))).isSome = true
    ∧ decryptInPlace
        (encryptInPlace "hello" "pw1" none true (List.replicate 16 0)
          (List.replicate 16 0)) "pw2" = none := by
  refine ⟨by decide, ?_, ?_, ?_⟩
  · unfold decryptInPlace
    rw [show parseInPlaceEncrypted "no marker here" = none from by decide]
  · rw [parse_encryptInPlace_noHint]
    rfl
  · exact decryptInPlace_core_wrong "hello" "pw1" "pw2" (List.replicate 16 0)
      (List.replicate 16 0) (by simp) (by simp) (by decide) _ none
      (parse_encryptInPlace_noHint "hello" "pw1" true _ _)

/-- C3 amended: the in-place decrypt operation reports both failure classes
with the same outcome `none`: a structural failure (text with no marker, or
an undersized blob) and an authentication failure (wrong password) are
indistinguishable from the return value. In the whole-file flow a
structural failure surfaces as a thrown JSON parse error in the caller,
outside `decryptFileData` itself. -/
theorem c3_failures_same_outcome :
    (∀ text pw : String, parseInPlaceEncrypted text = none →
      decryptInPlace text pw = none)
    ∧ (∀ text pw1 pw2 : String, ∀ s i : Bytes, s.length = 16 → i.length = 16 →
        pw1 ≠ pw2 →
        decryptInPlace (encryptInPlace text pw1 none true s i) pw2 = none) := by
  constructor
  · intro text pw hp
    unfold decryptInPlace
    rw [hp]
  · intro text pw1 pw2 s i hs hi hne
    exact decryptInPlace_core_wrong text pw1 pw2 s i hs hi hne _ none
      (parse_encryptInPlace_noHint text pw1 true s i)

/-- Witness for C3's amended theorem at concrete inputs. -/
theorem c3_failures_same_outcome_witness :
    decryptInPlace "xyz" "pw" = none
    ∧ decryptInPlace
        (encryptInPlace "hello" "a" none true (List.replicate 16 0)
          (List.replicate 16 0)) "b" = none :=
  ⟨c3_failures_same_outcome.1 "xyz" "pw" (by decide),
    c3_failures_same_outcome.2 "hello" "a" "b" (List.replicate 16 0)
      (List.replicate 16 0) (by simp) (by simp) (by decide)⟩

/-- C5 counterexample: encrypting with the EMPTY hint `some ""` produces the
without-hint marker shape, and parsing it yields an absent hint (`none`),
not `some ""`; so the round-trip equation `parsed.hint = h` of the claim
fails for the hint `""`. -/
theorem c5_counterexample :
    Option.map ParsedInPlace.hint
        (parseInPlaceEncrypted
          (encryptInPlace "hello" "pw" (some "") true (List.replicate 16 0)
            (List.replicate 16 0)))
      ≠ some (some "") := by
  rw [encryptInPlace_emptyHint, parse_encryptInPlace_noHint]
  simp

/-- C5 amended: the inline-marker round-trip holds for both modes when the
hint is absent, or present, nonempty and free of `':'` and the marker glyph
(an empty hint is encoded as the without-hint shape and parses back as
absent): parsing returns exactly the hint and decrypting with the same
password returns the text. -/
theorem c5_marker_roundtrip (text pw : String) (h : Option String) (vis : Bool)
    (s i : Bytes) (hs : s.length = 16) (hi : i.length = 16)
    (hgood : hintUsable h = true) :
    Option.map ParsedInPlace.hint
        (parseInPlaceEncrypted (encryptInPlace text pw h vis s i)) = some h
    ∧ decryptInPlace (encryptInPlace text pw h vis s i) pw = some text := by
  cases h with
  | none =>
    constructor
    · rw [parse_encryptInPlace_noHint]
      rfl
    · exact decryptInPlace_core_same text pw s i hs hi _ none
        (parse_encryptInPlace_noHint text pw vis s i)
  | some hstr =>
    have hne : ¬(hstr = "") := by
      intro heq
      rw [hintUsable, if_pos heq] at hgood
      exact Bool.false_ne_true hgood
    have hhc : ∀ c ∈ hstr.data, isHintChar c = true := by
      rw [hintUsable, if_neg hne] at hgood
      exact fun c hc => List.all_eq_true.mp hgood c hc
    constructor
    · rw [parse_encryptInPlace_withHint text pw hstr vis s i hne hhc]
      rfl
    · exact decryptInPlace_core_same text pw s i hs hi _ (some hstr)
        (parse_encryptInPlace_withHint text pw hstr vis s i hne hhc)

/-- Witness for C5's amended theorem at concrete inputs. -/
theorem c5_marker_roundtrip_witness :
    (List.replicate 16 0 : Bytes).length = 16 ∧ hintUsable (some "k") = true
    ∧ Option.map ParsedInPlace.hint
        (parseInPlaceEncrypted
          (encryptInPlace "hi" "pw" (some "k") false (List.replicate 16 0)
            (List.replicate 16 0))) = some (some "k")
    ∧ decryptInPlace
        (encryptInPlace "hi" "pw" (some "k") false (List.replicate 16 0)
          (List.replicate 16 0)) "pw" = some "hi" := by
  have hmain := c5_marker_roundtrip "hi" "pw" (some "k") false
    (List.replicate 16 0) (List.replicate 16 0) (by simp) (by simp) (by decide)
  exact ⟨by simp, by decide, hmain.1, hmain.2⟩

/-- C6 counterexample: in the text `🔐AA🔐 🔐h:BB🔐` the leftmost marker
occurrence among the four shapes is the without-hint marker `🔐AA🔐`
(standing alone it parses to `{hint: none, combinedData: "AA"}`), yet
`parseInPlaceEncrypted` returns the LATER with-hint marker `🔐h:BB🔐`,
because the with-hint pattern is tried first over the whole text. -/
theorem c6_counterexample :
    parseInPlaceEncrypted "🔐AA🔐 🔐h:BB🔐" = some ⟨some "h", "BB"⟩
    ∧ parseInPlaceEncrypted "🔐AA🔐" = some ⟨none, "AA"⟩ := by
  constructor
  · decide
  · decide

/-- C6 amended: the four marker shapes are tried in a fixed priority order
(visible-with-hint first), each scanned for its leftmost occurrence, so a
with-hint marker wins over any earlier marker of another shape; for the
with-hint pattern, any text whose prefix before a well-formed marker is free
of `':'` parses to exactly that marker, and the returned hint is exactly the
characters between the opening glyph and the `':'` delimiter. -/
theorem c6_priority_and_hint (preS hS dS sufS : String)
    (hpre : ':' ∉ preS.data) (hh : hS.data ≠ [])
    (hhc : ∀ c ∈ hS.data, isHintChar c = true) (hd : dS.data ≠ [])
    (hdc : ∀ c ∈ dS.data, isB64Char c = true) :
    parseInPlaceEncrypted (preS ++ "🔐" ++ hS ++ ":" ++ dS ++ "🔐" ++ sufS)
      = some ⟨some hS, dS⟩ := by
  refine parse_withHint_data _ hS dS preS.data sufS.data ?_ hpre hh hhc hd hdc
  simp [String.data_append]

/-- Witness for C6's amended theorem: the prefix itself contains a complete
without-hint marker, and the parse still returns the later with-hint one. -/
theorem c6_priority_and_hint_witness :
    parseInPlaceEncrypted ("🔐AA🔐 " ++ "🔐" ++ "h" ++ ":" ++ "BB" ++ "🔐" ++ "")
      = some ⟨some "h", "BB"⟩ :=
  c6_priority_and_hint "🔐AA🔐 " "h" "BB" "" (by decide) (by decide)
    (by decide) (by decide) (by decide)

/-- C7: `decryptInPlace` splits the decoded combined blob at the fixed byte
offsets 0:16 (salt), 16:32 (iv), 32:48 (authTag), 48:end (ciphertext), and
every blob shorter than 48 bytes is rejected structurally with `none`
before any key derivation or decryption is attempted. -/
theorem c7_fixed_offsets (textS pw : String) (p : ParsedInPlace)
    (hp : parseInPlaceEncrypted textS = some p) :
    ((base64ToBuf p.combinedData).length < 48 → decryptInPlace textS pw = none)
    ∧ (∀ a b c d : Bytes, a.length = 16 → b.length = 16 → c.length = 16 →
        base64ToBuf p.combinedData = a ++ (b ++ (c ++ d)) →
        decryptInPlace textS pw
          = decryptFromBase64 (bufToBase64 d) pw (bufToBase64 a) (bufToBase64 b)
              (bufToBase64 c)) := by
  constructor
  · intro hlt
    unfold decryptInPlace
    rw [hp]
    simp only [SALT_LENGTH, IV_LENGTH, AUTH_TAG_LENGTH]
    rw [if_pos (by omega)]
  · intro a b c d ha hb hc hcomb
    exact decryptInPlace_split textS pw p hp a b c d ha hb hc hcomb

/-- Witness for C7: the marker `🔐A🔐` parses, its blob decodes to the
single byte `[0]`, shorter than 48, and decryption fails structurally. -/
theorem c7_fixed_offsets_witness :
    parseInPlaceEncrypted "🔐A🔐" = some ⟨none, "A"⟩
    ∧ (base64ToBuf "A").length < 48
    ∧ decryptInPlace "🔐A🔐" "pw" = none :=
  ⟨by decide, by decide,
    (c7_fixed_offsets "🔐A🔐" "pw" ⟨none, "A"⟩ (by decide)).1 (by decide)⟩

/-- C9: encrypting with the empty-string hint is indistinguishable from
encrypting with no hint: for every text, password, mode and entropy, the
produced marker is the without-hint shape (equal to the no-hint encoding),
and parsing it yields an absent hint (`none`), not the empty string. -/
theorem c9_empty_hint (text pw : String) (vis : Bool) (s i : Bytes) :
    encryptInPlace text pw (some "") vis s i = encryptInPlace text pw none vis s i
    ∧ Option.map ParsedInPlace.hint
        (parseInPlaceEncrypted (encryptInPlace text pw (some "") vis s i))
      = some none := by
  refine ⟨encryptInPlace_emptyHint text pw vis s i, ?_⟩
  rw [encryptInPlace_emptyHint, parse_encryptInPlace_noHint]
  rfl

/-! ## PasswordService: session password cache -/

/-- `PasswordAndHint` (types.ts). -/
structure PasswordAndHint where
  password : String
  hint : String
deriving DecidableEq

/-- `PasswordCacheEntry` (types.ts); timestamps are `Date.now()` epoch ms. -/
structure PasswordCacheEntry where
  password : String
  hint : String
  timestamp : Nat
deriving DecidableEq

/-- The scope level `'workspace' | 'folder' | 'file'`. -/
inductive CacheLevel
  | workspace
  | folder
  | file
deriving DecidableEq

/-- State of a `PasswordService` instance; the JS `Map` is an association
list in insertion order. -/
structure PasswordServiceState where
  cache : List (String × PasswordCacheEntry)
  active : Bool
  timeout : Nat
  level : CacheLevel
deriving DecidableEq

/-- `Map.set`: overwrite in place when the key exists, else append. -/
def mapSet (m : List (String × PasswordCacheEntry)) (k : String)
    (v : PasswordCacheEntry) : List (String × PasswordCacheEntry) :=
  if (m.lookup k).isSome then
    m.map (fun p => if p.1 = k then (k, v) else p)
  else m ++ [(k, v)]

/-- `Map.delete`. -/
def mapDelete (m : List (String × PasswordCacheEntry)) (k : String) :
    List (String × PasswordCacheEntry) :=
  m.filter (fun p => ¬(p.1 = k))

/-- `PasswordService.getCacheKey`; `vscode.workspace.getWorkspaceFolder` is
external editor state, passed as the `folderOf` lookup. -/
def getCacheKey (folderOf : String → Option String) (level : CacheLevel)
    (filePath : String) : String :=
  match level with
  | CacheLevel.workspace => "workspace"
  | CacheLevel.folder =>
    match folderOf filePath with
    | some ws => ws ++ ":" ++ filePath
    | none => filePath
  | CacheLevel.file => filePath

/-- `PasswordService.put`; `Date.now()` is the explicit `now`. -/
def PasswordService.put (folderOf : String → Option String)
    (s : PasswordServiceState) (ph : PasswordAndHint) (filePath : String)
    (now : Nat) : PasswordServiceState :=
  if s.active = false then s
  else
    { s with cache := (mapSet s.cache (getCacheKey folderOf s.level filePath)
        ⟨ph.password, ph.hint, now⟩) }

/-- `PasswordService.get`: lazy expiration check; an expired entry is
deleted and empty strings are returned. -/
def PasswordService.get (folderOf : String → Option String)
    (s : PasswordServiceState) (filePath : String) (now : Nat) :
    PasswordAndHint × PasswordServiceState :=
  let key := getCacheKey folderOf s.level filePath
  match s.cache.lookup key with
  | some entry =>
    if s.timeout > 0 then
      if now - entry.timestamp > s.timeout * 60 * 1000 then
        (⟨"", ""⟩, { s with cache := mapDelete s.cache key })
      else (⟨entry.password, entry.hint⟩, s)
    else (⟨entry.password, entry.hint⟩, s)
  | none => (⟨"", ""⟩, s)

/-- `PasswordService.has`: same lazy-expiration test, read-only. -/
def PasswordService.has (folderOf : String → Option String)
    (s : PasswordServiceState) (filePath : String) (now : Nat) :
    Bool × PasswordServiceState :=
  match s.cache.lookup (getCacheKey folderOf s.level filePath) with
  | none => (false, s)
  | some entry =>
    if s.timeout > 0 then
      (decide (now - entry.timestamp ≤ s.timeout * 60 * 1000), s)
    else (true, s)

/-- `PasswordService.clearForFile`. -/
def PasswordService.clearForFile (folderOf : String → Option String)
    (s : PasswordServiceState) (filePath : String) : PasswordServiceState :=
  { s with cache := mapDelete s.cache (getCacheKey folderOf s.level filePath) }

/-- `PasswordService.clear`: returns the number of entries removed. -/
def PasswordService.clear (s : PasswordServiceState) :
    Nat × PasswordServiceState :=
  (s.cache.length, { s with cache := [] })

/-- The `size` getter. -/
def PasswordService.size (s : PasswordServiceState) : Nat := s.cache.length

/-- `PasswordService.removeExpiredEntries`: the per-minute sweep body. -/
def PasswordService.removeExpiredEntries (s : PasswordServiceState)
    (now : Nat) : PasswordServiceState :=
  if s.timeout = 0 then s
  else
    { s with cache := (s.cache.filter
        (fun p => ¬(now - p.2.timestamp > s.timeout * 60 * 1000))) }

/-- `PasswordService.init`. -/
def PasswordService.init (s : PasswordServiceState) (active : Bool)
    (timeout : Nat) (level : CacheLevel) : PasswordServiceState :=
  let s2 := { s with active := active, timeout := timeout, level := level }
  if active = false then (PasswordService.clear s2).2 else s2

/-! ## Cache lemmas and claims C8, C10 -/

theorem lookup_replace (k : String) (v : PasswordCacheEntry) :
    ∀ m : List (String × PasswordCacheEntry), (m.lookup k).isSome = true →
      (m.map (fun p => if p.1 = k then (k, v) else p)).lookup k = some v := by
  intro m
  induction m with
  | nil => intro h; simp [List.lookup] at h
  | cons a t ih =>
    obtain ⟨ak, av⟩ := a
    intro h
    by_cases hk : ak = k
    · subst hk
      have hhead : (if (ak, av).1 = ak then (ak, v) else (ak, av)) = (ak, v) := by
        simp
      rw [List.map_cons, hhead]
      simp [List.lookup]
    · have hkb : (k == ak) = false := by
        simp only [beq_eq_false_iff_ne, ne_eq]
        exact fun heq => hk heq.symm
      have h2 : (t.lookup k).isSome = true := by
        rw [List.lookup, hkb] at h
        exact h
      have hhead : (if (ak, av).1 = k then (k, v) else (ak, av)) = (ak, av) := by
        simp [hk]
      rw [List.map_cons, hhead, List.lookup, hkb]
      exact ih h2

theorem lookup_append_single (k : String) (v : PasswordCacheEntry) :
    ∀ m : List (String × PasswordCacheEntry), (m.lookup k).isSome = false →
      (m ++ [(k, v)]).lookup k = some v := by
  intro m
  induction m with
  | nil => intro _; simp [List.lookup]
  | cons a t ih =>
    obtain ⟨ak, av⟩ := a
    intro h
    cases hkb : (k == ak) with
    | true =>
      rw [List.lookup, hkb] at h
      simp at h
    | false =>
      have h2 : (t.lookup k).isSome = false := by
        rw [List.lookup, hkb] at h
        exact h
      rw [List.cons_append, List.lookup, hkb]
      exact ih h2

/-- `Map.set` followed by lookup of the same key returns the new value. -/
theorem lookup_mapSet (m : List (String × PasswordCacheEntry)) (k : String)
    (v : PasswordCacheEntry) : (mapSet m k v).lookup k = some v := by
  unfold mapSet
  cases hp : (m.lookup k).isSome with
  | true =>
    rw [if_pos rfl]
    exact lookup_replace k v m hp
  | false =>
    rw [if_neg (by simp)]
    exact lookup_append_single k v m hp

/-- C8: password-cache TTL contract. With caching active, `put` followed
immediately by `get` at the same path returns the stored password and hint;
once the entry's age exceeds `timeoutMinutes` (in ms, when the timeout is
positive) `get` returns empty strings and `has` returns false; and with
`timeoutMinutes = 0` the entry never expires: `get` and `has` treat it as
present at every later time. -/
theorem c8_cache_ttl (folderOf : String → Option String)
    (s : PasswordServiceState) (ph : PasswordAndHint) (filePath : String)
    (now later : Nat) (hact : s.active = true) :
    (PasswordService.get folderOf (PasswordService.put folderOf s ph filePath now)
        filePath now).1 = ph
    ∧ (0 < s.timeout → later - now > s.timeout * 60 * 1000 →
        (PasswordService.get folderOf
            (PasswordService.put folderOf s ph filePath now) filePath later).1
          = ⟨"", ""⟩
        ∧ (PasswordService.has folderOf
            (PasswordService.put folderOf s ph filePath now) filePath later).1
          = false)
    ∧ (s.timeout = 0 →
        (PasswordService.get folderOf
            (PasswordService.put folderOf s ph filePath now) filePath later).1 = ph
        ∧ (PasswordService.has folderOf
            (PasswordService.put folderOf s ph filePath now) filePath later).1
          = true) := by
  have hput : PasswordService.put folderOf s ph filePath now
      = { s with cache := (mapSet s.cache (getCacheKey folderOf s.level filePath)
          ⟨ph.password, ph.hint, now⟩) } := by
    unfold PasswordService.put
    rw [if_neg (by rw [hact]; simp)]
  have hlook : (mapSet s.cache (getCacheKey folderOf s.level filePath)
      ⟨ph.password, ph.hint, now⟩).lookup (getCacheKey folderOf s.level filePath)
      = some ⟨ph.password, ph.hint, now⟩ :=
    lookup_mapSet s.cache _ _
  refine ⟨?_, ?_, ?_⟩
  · unfold PasswordService.get
    rw [hput]
    simp only [hlook]
    have hage : ¬(now - now > s.timeout * 60 * 1000) := by omega
    cases htp : s.timeout with
    | zero => simp
    | succ n =>
      rw [htp] at hage
      simp [hage]
  · intro htpos hage
    constructor
    · unfold PasswordService.get
      rw [hput]
      simp only [hlook]
      rw [if_pos (by omega), if_pos hage]
    · unfold PasswordService.has
      rw [hput]
      simp only [hlook]
      rw [if_pos (by omega)]
      simp only [decide_eq_false_iff_not]
      omega
  · intro htz
    constructor
    · unfold PasswordService.get
      rw [hput]
      simp only [hlook, htz]
      simp
    · unfold PasswordService.has
      rw [hput]
      simp only [hlook, htz]
      simp

/-- Witness for C8 at concrete inputs: an active cache with a 30-minute
timeout, storing at time 0 and reading at times 0 and 1800001 ms. -/
theorem c8_cache_ttl_witness :
    (PasswordService.get (fun _ => none)
        (PasswordService.put (fun _ => none)
          ⟨[], true, 30, CacheLevel.file⟩ ⟨"pw", "hint"⟩ "/a/b.md" 0)
        "/a/b.md" 0).1 = ⟨"pw", "hint"⟩
    ∧ (PasswordService.get (fun _ => none)
        (PasswordService.put (fun _ => none)
          ⟨[], true, 30, CacheLevel.file⟩ ⟨"pw", "hint"⟩ "/a/b.md" 0)
        "/a/b.md" 1800001).1 = ⟨"", ""⟩
    ∧ (PasswordService.has (fun _ => none)
        (PasswordService.put (fun _ => none)
          ⟨[], true, 30, CacheLevel.file⟩ ⟨"pw", "hint"⟩ "/a/b.md" 0)
        "/a/b.md" 1800001).1 = false := by
  have hmain := c8_cache_ttl (fun _ => none) ⟨[], true, 30, CacheLevel.file⟩
    ⟨"pw", "hint"⟩ "/a/b.md" 0 1800001 rfl
  have hexp := hmain.2.1 (by decide) (by decide)
  exact ⟨hmain.1, hexp.1, hexp.2⟩

/-- C10: `has` never mutates the cache: the state after a call equals the
state before, even for an expired entry; the entry still counts toward
`size` and toward the count returned by `clear()`. -/
theorem c10_has_pure (folderOf : String → Option String)
    (s : PasswordServiceState) (filePath : String) (now : Nat) :
    (PasswordService.has folderOf s filePath now).2 = s
    ∧ PasswordService.size (PasswordService.has folderOf s filePath now).2
      = PasswordService.size s
    ∧ (PasswordService.clear (PasswordService.has folderOf s filePath now).2).1
      = PasswordService.size s := by
  have hframe : (PasswordService.has folderOf s filePath now).2 = s := by
    unfold PasswordService.has
    cases s.cache.lookup (getCacheKey folderOf s.level filePath) with
    | none => rfl
    | some entry =>
      simp only []
      split
      · rfl
      · rfl
  exact ⟨hframe, by rw [hframe], by rw [hframe]; rfl⟩
